import Mathlib

/-!
Verification of the rating-inference engine of the shorewood-basketball-analytics
repository (src/analyze_games.py and src/calculate_ols_ratings.py) against its
natural-language specification.

Modelling conventions, used consistently below:
* Python strings are modelled as lists of natural-number code points (`Str`).
  The repository only ever normalizes ASCII team labels, so `str.lower` is
  modelled by the ASCII case map and the Python whitespace class by the ASCII
  whitespace code points.
* Python floats are modelled as rationals (`Rat`); `numpy.std`, a float square
  root, is modelled by `Rat.sqrt` (exact on perfect squares, always
  nonnegative, as the float version is).
* A JSON score field is modelled as `Option Rat`: `none` stands for an absent,
  empty or non-numeric score, which the source drops via its
  notna / empty-string / to_numeric-coerce filter chain.
* Calls into sklearn fitting routines are modelled by an abstract `Solver`
  argument returning a coefficient vector and an intercept; the validation
  errors sklearn raises (zero feature columns, more CV splits than samples)
  and the KeyError / IndexError behaviour of pandas and numpy are made
  explicit with `Except` results.
-/

/-- Python strings as lists of code points. -/
abbrev Str := List Nat

/-- Code point of the apostrophe character. -/
def apostropheCp : Nat := 39

/-- Code point of the underscore character. -/
def underscoreCp : Nat := 95

/-- ASCII whitespace class: the code points matched by the regex class \s and
stripped by str.strip for the ASCII labels this repository processes. -/
def isWsCp (c : Nat) : Bool :=
  c == 32 || c == 9 || c == 10 || c == 11 || c == 12 || c == 13

/-- ASCII case map of Python str.lower. -/
def toLowerCp (c : Nat) : Nat :=
  if 65 ≤ c ∧ c ≤ 90 then c + 32 else c

/-- Lowercasing of a label: team_name.lower(). -/
def lowerStr (s : Str) : Str := s.map toLowerCp

/-- Removal of apostrophe characters: re.sub of an apostrophe with the empty
string. -/
def removeApos (s : Str) : Str := s.filter (fun c => c ≠ apostropheCp)

/-- Leading- and trailing-whitespace removal: str.strip(). -/
def stripStr (s : Str) : Str :=
  ((s.dropWhile isWsCp).reverse.dropWhile isWsCp).reverse

/-- Replacement of every maximal run of whitespace by a single underscore,
written as a single pass: the flag records whether the previous character was
whitespace, so an underscore is emitted only at the first character of each
whitespace run. -/
def collapseWsFrom : Bool → Str → Str
  | _, [] => []
  | inWs, c :: cs =>
    if isWsCp c then
      if inWs then collapseWsFrom true cs
      else underscoreCp :: collapseWsFrom true cs
    else c :: collapseWsFrom false cs

/-- Replacement of every maximal run of whitespace by a single underscore:
re.sub of one-or-more whitespace with an underscore. -/
def collapseWs (s : Str) : Str := collapseWsFrom false s

/-- Core of a label after the first three normalization stages, in the order
the source applies them: lower, then strip, then apostrophe removal. -/
def canonLabel (s : Str) : Str := removeApos (stripStr (lowerStr s))

/-- Model of normalize_team_name (identical in src/analyze_games.py lines
20-27 and src/calculate_ols_ratings.py lines 18-25): a falsy argument (the
absent label None, or the empty string) yields None; otherwise the label is
lowercased, stripped, stripped of apostrophes, and whitespace runs become
underscores. -/
def normalize_team_name : Option Str → Option Str
  | none => none
  | some s => if s = [] then none else some (collapseWs (canonLabel s))

/-- Separator class for word decomposition: whitespace or an underscore. -/
def sepCp (c : Nat) : Bool := isWsCp c || c == underscoreCp

/-- Decomposition of a string into maximal runs of non-separator characters
(the word tokens), dropping separators. -/
def splitWords : Str → List Str
  | [] => []
  | c :: cs =>
    if sepCp c then splitWords cs
    else (c :: cs.takeWhile (fun d => !sepCp d)) :: splitWords (cs.dropWhile (fun d => !sepCp d))
termination_by s => s.length
decreasing_by
  · simp
  · simpa using Nat.lt_succ_of_le (List.dropWhile_sublist _).length_le

/-- Underlying words of a label: the word tokens of its lowercased, stripped,
apostrophe-free core, with whitespace and underscores as separators. Two
labels with the same underlying words are the same name up to case,
whitespace/underscore layout and apostrophes. -/
def underlyingWords (s : Str) : List Str := splitWords (canonLabel s)

/-- Lexicographic order on code-point strings, as Python compares str values
when sorting the team universe. -/
def strLt : Str → Str → Bool
  | [], [] => false
  | [], _ :: _ => true
  | _ :: _, [] => false
  | a :: as, b :: bs => a < b || (a == b && strLt as bs)

/-- Ordered duplicate-free insertion used to model sorted(set(...)). -/
def insertStr (s : Str) : List Str → List Str
  | [] => [s]
  | t :: ts =>
    if strLt s t then s :: t :: ts
    else if s = t then t :: ts
    else t :: insertStr s ts

/-- Model of sorted(set(l)) on string keys. -/
def sortedDedup (l : List Str) : List Str := l.foldr insertStr []

/-- Game record as the rating functions consume it: the four fields every
scraped record carries. A score is `none` when the JSON value is absent,
empty, or fails numeric coercion. -/
structure RawGame where
  home_team : Str
  away_team : Str
  home_score : Option Rat
  away_score : Option Rat

/-- Valid-score test of the filter chain: both scores present and numeric. -/
def validScore (g : RawGame) : Bool :=
  g.away_score.isSome && g.home_score.isSome

/-- Games retained for fitting. -/
def filterValidGames (games : List RawGame) : List RawGame :=
  games.filter validScore

/-- Normalized key of the home team. -/
def homeKey (g : RawGame) : Option Str := normalize_team_name (some g.home_team)

/-- Normalized key of the away team. -/
def awayKey (g : RawGame) : Option Str := normalize_team_name (some g.away_team)

/-- Team universe: sorted deduplicated union of the home and away keys of the
retained games, with rows lacking a key dropped. -/
def teamsOf (games : List RawGame) : List Str :=
  sortedDedup ((filterValidGames games).filterMap homeKey ++
    (filterValidGames games).filterMap awayKey)

/-- Default of the margin_game_cap parameter. -/
def margin_game_cap : Rat := 99

/-- Series.clip with a lower and an upper bound. -/
def clipQ (lo hi x : Rat) : Rat := max lo (min hi x)

/-- Capped home margin of a retained game: the home-minus-away score
difference clipped to the interval from -cap to cap. -/
def marginOf (cap : Rat) (g : RawGame) : Rat :=
  clipQ (-cap) cap (g.home_score.getD 0 - g.away_score.getD 0)

/-- Regression target vector y: the capped margins of the retained games in
order. -/
def margins (cap : Rat) (retained : List RawGame) : List Rat :=
  retained.map (marginOf cap)

/-- Design-matrix row of one game over the team universe: 1 in the home
column, -1 in the away column, 0 elsewhere. The away assignment is executed
second in the source, so on a (malformed) collision the away value wins, and
a missing key simply contributes no entry. -/
def rowFor (teams : List Str) (g : RawGame) : List Rat :=
  teams.map (fun t =>
    if awayKey g = some t then -1
    else if homeKey g = some t then 1
    else 0)

/-- Design matrix of the enumerate-based builders (both functions in
src/analyze_games.py): row i belongs to the i-th retained game. -/
def designMatrix (teams : List Str) (retained : List RawGame) : List (List Rat) :=
  retained.map (rowFor teams)

/-- Column count of a row-list matrix. -/
def matWidth (m : List (List Rat)) : Nat := (m.headD []).length

/-- Test for a game contributing at least one design-matrix write. -/
def hasAnyKnownKey (g : RawGame) : Bool :=
  (homeKey g).isSome || (awayKey g).isSome

/-- Design-matrix builder of src/calculate_ols_ratings.py lines 92-99, which
indexes the numpy matrix with the DataFrame index of each retained row (the
original position in the input list) instead of a sequential counter. The
matrix has one row per retained game, so a write is out of bounds - an
IndexError - exactly when a retained game with at least one known key sits at
an original position not below the retained count. Otherwise the retained
games occupy the first positions of the input in order and every write lands
on its own row; a keyless retained row beyond the bound performs no write and
leaves zero rows behind. -/
def designMatrixByIndex (games : List RawGame) (teams : List Str) :
    Except String (List (List Rat)) :=
  let idxed := (games.enum).filter (fun p => validScore p.2)
  let n := idxed.length
  if idxed.any (fun p => decide (n ≤ p.1) && hasAnyKnownKey p.2) then
    Except.error "IndexError: row index out of bounds"
  else
    Except.ok ((List.range n).map (fun r =>
      match idxed.find? (fun p => p.1 == r) with
      | some p => rowFor teams p.2
      | none => teams.map (fun _ => 0)))

/-- Abstract least-squares / elastic-net fitting routine: from a design matrix
and a target vector, a coefficient vector and an intercept. The pipelines
below are verified for every solver, so any fitted model is covered. -/
def Solver : Type := List (List Rat) → List Rat → (List Rat × Rat)

/-- Arithmetic mean, as Series.mean and numpy mean over a nonempty vector. -/
def meanQ (l : List Rat) : Rat := l.sum / (l.length : Rat)

/-- Centering step: subtract the mean from every rating. -/
def centerList (l : List Rat) : List Rat := l.map (fun x => x - meanQ l)

/-- Rounding of a rating to two decimals for presentation. -/
def round2 (q : Rat) : Rat := ((round (q * 100) : Int) : Rat) / 100

/-- Insertion step of the executable sort representative below: a row moves
past exactly the rows of strictly larger rating. -/
def insertRow (a : Str × Rat) : List (Str × Rat) → List (Str × Rat)
  | [] => [a]
  | b :: bs => if b.2 ≤ a.2 then a :: b :: bs else b :: insertRow a bs

/-- Executable stand-in for DataFrame.sort_values on the rating column with
ascending=False, used so the pipeline functions stay computable. pandas with
its default quicksort and no secondary sort key guarantees only a descending
permutation of the rows - the relative order of equal ratings is unspecified -
so the guarantee the program actually provides is the contract
IsSortValuesDesc below, which this insertion sort is proved to satisfy;
nothing about its particular tie order is relied on. -/
def sortTable (l : List (Str × Rat)) : List (Str × Rat) := l.foldr insertRow []

/-- Presentation step: sort by rating descending, then round the ratings to
two decimals. -/
def presentTable (l : List (Str × Rat)) : List (Str × Rat) :=
  (sortTable l).map (fun p => (p.1, round2 p.2))

/-- Contract of DataFrame.sort_values on the rating column with
ascending=False, as pandas documents it for the default (non-stable)
quicksort: the output is some permutation of the input rows that is
descending in the rating column. Nothing more is guaranteed; in particular
the relative order of rows with equal ratings is unspecified. -/
def IsSortValuesDesc (l out : List (Str × Rat)) : Prop :=
  l.Perm out ∧ out.Pairwise (fun x y => y.2 ≤ x.2)

/-- Cross-validation fold count of src/analyze_games.py line 337. -/
def nFolds (nGames : Nat) : Nat := max 3 (min 10 (nGames / 2))

/-- Column removal used to study reference-team independence: drop column k
from every row. The source always drops the last column; the spec asserts
the centering invariant for any choice, so the column index is a parameter. -/
def dropColumn (k : Nat) (m : List (List Rat)) : List (List Rat) :=
  m.map (fun r => r.eraseIdx k)

/-- Reinstatement of the dropped team with coefficient 0 at position k. -/
def reinstateZero (k : Nat) (c : List Rat) : List Rat := c.insertIdx k 0

/-- Reduced design matrix of the OLS fits: the full matrix with the last
column (the last team in the sorted universe) removed. -/
def olsReducedDesign (games : List RawGame) : List (List Rat) :=
  (designMatrix (teamsOf games) (filterValidGames games)).map (fun r => r.dropLast)

/-- Full design matrix handed to the elastic-net fit of
src/analyze_games.py line 347: no column is removed. -/
def enDesign (games : List RawGame) : List (List Rat) :=
  designMatrix (teamsOf games) (filterValidGames games)

/-- OLS coefficient vector before centering: the fitted coefficients of the
first n-1 teams followed by the reinstated 0 of the dropped last team. -/
def olsPreCenterCoeffs (solver : Solver) (games : List RawGame) (cap : Rat) : List Rat :=
  (solver (olsReducedDesign games) (margins cap (filterValidGames games))).1 ++ [0]

/-- Centered elastic-net ratings before sorting and rounding. -/
def enCenteredRatings (solver : Solver) (games : List RawGame) (cap : Rat) : List Rat :=
  centerList (solver (enDesign games) (margins cap (filterValidGames games))).1

/-- Centered ratings of an OLS fit with an arbitrary reference column k
dropped and reinstated as 0. The source instantiates k with the index of the
last team. -/
def olsRatingsWithRef (solver : Solver) (games : List RawGame) (cap : Rat) (k : Nat) : List Rat :=
  centerList (reinstateZero k
    (solver (dropColumn k (enDesign games)) (margins cap (filterValidGames games))).1)

/-- Model of calculate_team_ratings of src/analyze_games.py lines 249-419.
The branches reproduce, in source order: the KeyError pandas raises when an
empty game list yields a DataFrame without score columns; the empty-result
return when no game survives the score filter; the sklearn validation error
on a design matrix with zero feature columns; the sklearn error when the
cross-validation fold count exceeds the sample count; and otherwise the
fitted, centered, sorted and rounded rating table. -/
def calculate_team_ratings (solver : Solver) (games : List RawGame)
    (cap : Rat := margin_game_cap) : Except String (List (Str × Rat)) :=
  if games.isEmpty then Except.error "KeyError: away_score"
  else
    let retained := filterValidGames games
    if retained.isEmpty then Except.ok []
    else
      let teams := teamsOf games
      if teams.isEmpty then Except.error "ValueError: 0 feature columns"
      else if retained.length < nFolds retained.length then
        Except.error "ValueError: n_splits greater than n_samples"
      else
        Except.ok (presentTable (teams.zip
          (centerList (solver (designMatrix teams retained) (margins cap retained)).1)))

/-- Model of calculate_ols_team_ratings of src/calculate_ols_ratings.py lines
27-162, including the IndexError of its index-based design-matrix builder and
the sklearn validation error when dropping the last column leaves no feature
column. -/
def calculate_ols_team_ratings (solver : Solver) (games : List RawGame)
    (cap : Rat := margin_game_cap) : Except String (List (Str × Rat)) :=
  if games.isEmpty then Except.error "KeyError: away_score"
  else
    let retained := filterValidGames games
    if retained.isEmpty then Except.ok []
    else
      let teams := teamsOf games
      match designMatrixByIndex games teams with
      | Except.error e => Except.error e
      | Except.ok X =>
        if teams.length ≤ 1 then Except.error "ValueError: 0 feature columns"
        else
          Except.ok (presentTable (teams.zip
            (centerList ((solver (X.map (fun r => r.dropLast)) (margins cap retained)).1 ++ [0]))))

/-- Model of the helper calculate_ols_ratings of src/analyze_games.py lines
175-247: same fit as the standalone OLS script but with the corrected
enumerate-based builder, and the result returned as an unsorted, unrounded
team-to-rating mapping in team order. -/
def calculate_ols_ratings (solver : Solver) (games : List RawGame)
    (cap : Rat := margin_game_cap) : Except String (List (Str × Rat)) :=
  if games.isEmpty then Except.error "KeyError: away_score"
  else
    let retained := filterValidGames games
    if retained.isEmpty then Except.ok []
    else
      let teams := teamsOf games
      if teams.length ≤ 1 then Except.error "ValueError: 0 feature columns"
      else
        Except.ok (teams.zip (centerList
          ((solver ((designMatrix teams retained).map (fun r => r.dropLast))
            (margins cap retained)).1 ++ [0])))

/-- Scan keeping the index of the first strictly smaller value, with i the
index of the next element, bi the best index so far and bv its value. -/
def argminFrom (i bi : Nat) (bv : Rat) : List Rat → Nat
  | [] => bi
  | x :: xs => if x < bv then argminFrom (i + 1) i x xs else argminFrom (i + 1) bi bv xs

/-- Model of numpy argmin: index of the first occurrence of the minimum. -/
def argminIdx : List Rat → Nat
  | [] => 0
  | x :: xs => argminFrom 1 0 x xs

/-- Population variance, the square of numpy std with its default ddof of 0. -/
def varQ (l : List Rat) : Rat := meanQ (l.map (fun x => (x - meanQ l) ^ 2))

/-- Standard deviation of the per-fold errors of one candidate penalty:
numpy std, modelled with the rational square root of the population
variance. -/
def stdQ (l : List Rat) : Rat := Rat.sqrt (varQ l)

/-- Indices of the candidate penalties whose mean cross-validated error is at
most the 1-SE threshold, which is the mean error at the argmin plus the
standard deviation there; src/analyze_games.py lines 357-363. -/
def qualifyingIndices (meanMse stdMse : List Rat) : List Nat :=
  let m := argminIdx meanMse
  let threshold := meanMse.getD m 0 + stdMse.getD m 0
  (List.range meanMse.length).filter (fun i => decide (meanMse.getD i 0 ≤ threshold))

/-- Index selected by the 1-SE branch: the last entry of the qualifying index
list (valid_indices[-1] in the source), or none when that list is empty, in
which case the source falls back to the minimum-error penalty with a
warning. -/
def oneSeChosenIdx (meanMse stdMse : List Rat) : Option Nat :=
  (qualifyingIndices meanMse stdMse).getLast?

/-- Penalty strength the 1-SE branch of src/analyze_games.py lines 350-382
ends up using, given the candidate penalties of the fitted path and the
cross-validation error path (one row of per-fold errors for each penalty). -/
def oneSeAlpha (alphas : List Rat) (msePath : List (List Rat)) : Rat :=
  let meanMse := msePath.map meanQ
  let stdMse := msePath.map stdQ
  match oneSeChosenIdx meanMse stdMse with
  | some j => alphas.getD j 0
  | none => alphas.getD (argminIdx meanMse) 0

/-- Penalty strength of minimum-error selection: the candidate at the argmin
of the mean cross-validated errors, as sklearn computes alpha_. -/
def minErrorAlpha (alphas : List Rat) (msePath : List (List Rat)) : Rat :=
  alphas.getD (argminIdx (msePath.map meanQ)) 0

/-- Largest qualifying penalty, the selection the specification prescribes
for the 1-SE rule: the maximum of the candidate penalties whose mean error is
within the threshold. Stated from the words of the spec for comparison with
the selection the source implements. -/
def specOneSeAlpha (alphas : List Rat) (msePath : List (List Rat)) : Rat :=
  let meanMse := msePath.map meanQ
  let stdMse := msePath.map stdQ
  ((qualifyingIndices meanMse stdMse).map (fun i => alphas.getD i 0)).foldr max 0

/-- Example team label a. -/
def teamA : Str := [97]

/-- Example team label b. -/
def teamB : Str := [98]

/-- Example game: a at home beats b 10 to 5. -/
def gameAB : RawGame := ⟨teamA, teamB, some 10, some 5⟩

/-- Example game: b at home draws a 7 to 7. -/
def gameBA : RawGame := ⟨teamB, teamA, some 7, some 7⟩

/-- Example game with no scores, dropped by the filter. -/
def gameNoScore : RawGame := ⟨teamA, teamB, none, none⟩

/-- Example schedule of two valid games. -/
def exGames : List RawGame := [gameAB, gameBA]

/-- Example schedule where a scoreless game precedes two valid ones, so the
retained DataFrame has a non-sequential index. -/
def exGamesBad : List RawGame := [gameNoScore, gameAB, gameBA]

/-- Example schedule with three valid games, enough for cross-validation. -/
def exGamesCV : List RawGame := [gameAB, gameBA, ⟨teamA, teamB, some 3, some 1⟩]

/-- Trivial concrete solver used to instantiate witnesses: all coefficients
zero. -/
def zeroSolver : Solver := fun X _ => ((X.headD []).map (fun _ => 0), 0)

theorem sum_map_sub_const (l : List Rat) (m : Rat) :
    (l.map (fun x => x - m)).sum = l.sum - l.length * m := by
  induction l with
  | nil => simp
  | cons x xs ih =>
    simp only [List.map_cons, List.sum_cons, ih, List.length_cons]
    push_cast
    ring

theorem sum_centerList (l : List Rat) : (centerList l).sum = 0 := by
  unfold centerList meanQ
  rw [sum_map_sub_const]
  rcases eq_or_ne l [] with h | h
  · subst h; simp
  · have h0 : l.length ≠ 0 := fun hh => h (List.length_eq_zero.mp hh)
    have hq : (l.length : Rat) ≠ 0 := Nat.cast_ne_zero.mpr h0
    field_simp

/-- C3: for every game list, every solver, every cap and every choice of
dropped reference column, the centered rating vector - the coefficients after
the dropped coefficient is reinstated, before any rounding - sums to exactly
0 in exact arithmetic, hence in particular to 0 within the tolerance 1e-6 of
the claim; likewise for the elastic-net ratings (no dropped column) and the
ratings of the OLS pipelines (last column dropped). -/
theorem c3_centering_invariant (solver : Solver) (games : List RawGame) (cap : Rat) (k : Nat) :
    (olsRatingsWithRef solver games cap k).sum = 0 ∧
    (enCenteredRatings solver games cap).sum = 0 ∧
    (centerList (olsPreCenterCoeffs solver games cap)).sum = 0 ∧
    |(enCenteredRatings solver games cap).sum| ≤ 1 / 1000000 := by
  refine ⟨sum_centerList _, sum_centerList _, sum_centerList _, ?_⟩
  unfold enCenteredRatings
  rw [sum_centerList]
  norm_num

/-- C9: the regression target of every pipeline is the list of capped
margins: for each retained game, home score minus away score clipped to the
interval from -cap to cap, the cap parameter defaulting to 99; and whenever
the cap is nonnegative every margin indeed lies in that interval. -/
theorem c9_margin_clipped (games : List RawGame) (cap : Rat) :
    margins cap (filterValidGames games) =
      (filterValidGames games).map
        (fun g => max (-cap) (min cap (g.home_score.getD 0 - g.away_score.getD 0))) ∧
    margin_game_cap = 99 ∧
    (0 ≤ cap → ∀ m ∈ margins cap (filterValidGames games), -cap ≤ m ∧ m ≤ cap) := by
  refine ⟨rfl, rfl, ?_⟩
  intro hcap m hm
  unfold margins at hm
  rcases List.mem_map.mp hm with ⟨g, _, rfl⟩
  unfold marginOf clipQ
  refine ⟨le_max_left _ _, max_le (by linarith) (min_le_left _ _)⟩

theorem c9_margin_clipped_witness :
    (0 : Rat) ≤ 99 ∧ -99 ≤ marginOf 99 gameAB ∧ marginOf 99 gameAB ≤ 99 :=
  ⟨by norm_num, (c9_margin_clipped exGames 99).2.2 (by norm_num) (marginOf 99 gameAB)
    (by simp [margins, filterValidGames, exGames, validScore, gameAB, gameBA])⟩

/-- C6: evaluation of both rating entry points at the failing input, the
empty game list. A DataFrame built from an empty list has no columns, so the
score-column selection raises KeyError before the zero-valid-games guard is
reached, where the claim promises an empty rating set; with a nonempty list
whose games merely lack scores the guard is reached and the empty table is
returned as claimed. -/
theorem c6_empty_list_keyerror :
    calculate_team_ratings zeroSolver [] = Except.error "KeyError: away_score" ∧
    calculate_ols_team_ratings zeroSolver [] = Except.error "KeyError: away_score" ∧
    calculate_team_ratings zeroSolver [gameNoScore] = Except.ok [] ∧
    calculate_ols_team_ratings zeroSolver [gameNoScore] = Except.ok [] :=
  ⟨rfl, rfl, rfl, rfl⟩

/-- C7 counterexample: a schedule with a single retained valid-score game.
The fold count is clamped up to 3, which exceeds the sample count of 1, so
the cross-validation fit raises instead of returning a ratings table. -/
theorem c7_single_game_cv_error :
    calculate_team_ratings zeroSolver [gameAB] =
      Except.error "ValueError: n_splits greater than n_samples" := rfl

/-- C7 as amended: for every game list with at least 3 retained valid-score
games and a nonempty team universe, the fold count equals
max(3, min(10, n / 2)), that count never exceeds the sample count, and
calculate_team_ratings completes with a ratings table. -/
theorem c7_folds_formula (solver : Solver) (games : List RawGame) (cap : Rat)
    (hn : 3 ≤ (filterValidGames games).length) (ht : teamsOf games ≠ []) :
    nFolds (filterValidGames games).length =
      max 3 (min 10 ((filterValidGames games).length / 2)) ∧
    nFolds (filterValidGames games).length ≤ (filterValidGames games).length ∧
    ∃ tbl, calculate_team_ratings solver games cap = Except.ok tbl := by
  have hg : games ≠ [] := by
    intro h
    rw [h] at hn
    simp [filterValidGames] at hn
  have hr : filterValidGames games ≠ [] := by
    intro h
    rw [h] at hn
    simp at hn
  refine ⟨rfl, by unfold nFolds; omega, ?_⟩
  unfold calculate_team_ratings
  rw [if_neg (by simp [hg]), if_neg (by simp [hr]), if_neg (by simp [ht]),
    if_neg (by unfold nFolds; omega)]
  exact ⟨_, rfl⟩

theorem c7_folds_formula_witness :
    3 ≤ (filterValidGames exGamesCV).length ∧ teamsOf exGamesCV ≠ [] ∧
    ∃ tbl, calculate_team_ratings zeroSolver exGamesCV 99 = Except.ok tbl :=
  ⟨by decide, by decide, (c7_folds_formula zeroSolver exGamesCV 99 (by decide) (by decide)).2.2⟩

/-- C2 counterexample: on a concrete two-team schedule the matrix handed to
the elastic-net fit keeps both team columns - its width equals the team
count, not the team count minus one - so the elastic-net mode does not drop a
reference column before fitting. -/
theorem c2_en_keeps_all_columns :
    matWidth (enDesign exGames) = 2 ∧ (teamsOf exGames).length = 2 ∧
    ¬ matWidth (enDesign exGames) = (teamsOf exGames).length - 1 := by
  refine ⟨rfl, rfl, by decide⟩

/-- C2 as amended: only the OLS fits drop a column - every row of their
reduced design matrix is one entry shorter than the team universe, the
dropped last coefficient reappears as a trailing 0 before centering, and the
centering runs on the reinstated vector; the elastic-net fit receives the
full matrix, every row as wide as the team universe, with no dropped or
reinstated coefficient. -/
theorem c2_column_drop_modes (solver : Solver) (games : List RawGame) (cap : Rat) :
    (∀ row ∈ olsReducedDesign games, row.length = (teamsOf games).length - 1) ∧
    (olsPreCenterCoeffs solver games cap).getLast? = some 0 ∧
    (∀ row ∈ enDesign games, row.length = (teamsOf games).length) := by
  refine ⟨?_, ?_, ?_⟩
  · intro row hrow
    rcases List.mem_map.mp hrow with ⟨r, hr, rfl⟩
    rcases List.mem_map.mp hr with ⟨g, _, rfl⟩
    simp [rowFor, List.length_dropLast]
  · unfold olsPreCenterCoeffs
    simp
  · intro row hrow
    rcases List.mem_map.mp hrow with ⟨g, _, rfl⟩
    simp [rowFor]

theorem c2_column_drop_modes_witness :
    (rowFor (teamsOf exGames) gameAB).dropLast ∈ olsReducedDesign exGames ∧
    ((rowFor (teamsOf exGames) gameAB).dropLast).length = (teamsOf exGames).length - 1 := by
  have hmem : (rowFor (teamsOf exGames) gameAB).dropLast ∈ olsReducedDesign exGames := by
    simp only [olsReducedDesign, designMatrix, List.map_map]
    exact List.mem_map.mpr ⟨gameAB, by simp [filterValidGames, exGames, validScore, gameAB], rfl⟩
  exact ⟨hmem, (c2_column_drop_modes zeroSolver exGames 99).1 _ hmem⟩

theorem meanQ_pair (a b : Rat) : meanQ [a, b] = (a + b) / 2 := by
  simp [meanQ]

theorem exMseMeans : List.map meanQ [[(5 : Rat), 5], [0, 2], [2, 2]] = [5, 1, 2] := by
  simp [meanQ_pair]

theorem ratSqrt_one : Rat.sqrt 1 = 1 := by
  rw [show (1 : Rat) = ((1 : Nat) : Rat) by norm_num, Rat.sqrt_natCast]
  norm_num

theorem ratSqrt_zero : Rat.sqrt 0 = 0 := by
  rw [show (0 : Rat) = ((0 : Nat) : Rat) by norm_num, Rat.sqrt_natCast]
  norm_num

theorem exMseStds : List.map stdQ [[(5 : Rat), 5], [0, 2], [2, 2]] = [0, 1, 0] := by
  have h1 : varQ [(5 : Rat), 5] = 0 := by
    simp [varQ, meanQ_pair]
  have h2 : varQ [(0 : Rat), 2] = 1 := by
    simp only [varQ, meanQ_pair, List.map_cons, List.map_nil]
    norm_num [meanQ_pair]
  have h3 : varQ [(2 : Rat), 2] = 0 := by
    simp [varQ, meanQ_pair]
  simp [stdQ, h1, h2, h3, ratSqrt_zero, ratSqrt_one]

theorem exArgmin : argminIdx [(5 : Rat), 1, 2] = 1 := by
  have ha : ¬ ((1 : Rat) < 1) := by norm_num
  have hb : (1 : Rat) < 5 := by norm_num
  have hc : ¬ ((2 : Rat) < 1) := by norm_num
  simp [argminIdx, argminFrom, ha, hb, hc]

theorem exQualifying : qualifyingIndices [(5 : Rat), 1, 2] [0, 1, 0] = [1, 2] := by
  have hr : List.range ([(5 : Rat), 1, 2].length) = [0, 1, 2] := rfl
  have h0 : decide (([(5 : Rat), 1, 2].getD 0 0) ≤
      [(5 : Rat), 1, 2].getD 1 0 + [(0 : Rat), 1, 0].getD 1 0) = false := by
    simp only [List.getD]
    norm_num
  have h1 : decide (([(5 : Rat), 1, 2].getD 1 0) ≤
      [(5 : Rat), 1, 2].getD 1 0 + [(0 : Rat), 1, 0].getD 1 0) = true := by
    simp only [List.getD]
    norm_num
  have h2 : decide (([(5 : Rat), 1, 2].getD 2 0) ≤
      [(5 : Rat), 1, 2].getD 1 0 + [(0 : Rat), 1, 0].getD 1 0) = true := by
    simp only [List.getD]
    norm_num
  simp only [qualifyingIndices, exArgmin, hr, List.filter, h0, h1, h2]

/-- C1 evaluation at the failing input: with the strictly descending penalty
path sklearn produces, the source takes the last qualifying index, which is
the smallest qualifying penalty; here the minimum-error penalty is 2 and the
specified 1-SE choice (largest qualifying penalty) is also 2, yet the code
selects 1, strictly smaller than the minimum-error penalty. -/
theorem c1_one_se_picks_smaller_penalty :
    List.Pairwise (fun a b => b < a) [(3 : Rat), 2, 1] ∧
    minErrorAlpha [3, 2, 1] [[5, 5], [0, 2], [2, 2]] = 2 ∧
    oneSeAlpha [3, 2, 1] [[5, 5], [0, 2], [2, 2]] = 1 ∧
    specOneSeAlpha [3, 2, 1] [[5, 5], [0, 2], [2, 2]] = 2 ∧
    oneSeAlpha [3, 2, 1] [[5, 5], [0, 2], [2, 2]] <
      minErrorAlpha [3, 2, 1] [[5, 5], [0, 2], [2, 2]] := by
  have hmin : minErrorAlpha [3, 2, 1] [[5, 5], [0, 2], [2, 2]] = 2 := by
    simp only [minErrorAlpha, exMseMeans, exArgmin]
    rfl
  have hse : oneSeAlpha [3, 2, 1] [[5, 5], [0, 2], [2, 2]] = 1 := by
    simp only [oneSeAlpha, oneSeChosenIdx, exMseMeans, exMseStds, exQualifying]
    rfl
  have hspec : specOneSeAlpha [3, 2, 1] [[5, 5], [0, 2], [2, 2]] = 2 := by
    simp only [specOneSeAlpha]
    rw [exMseMeans, exMseStds, exQualifying]
    norm_num [List.getD, max_def]
  refine ⟨?_, hmin, hse, hspec, ?_⟩
  · norm_num
  · rw [hmin, hse]
    norm_num

theorem argminFrom_lt (xs : List Rat) : ∀ (i bi : Nat) (bv : Rat), bi < i →
    argminFrom i bi bv xs < i + xs.length := by
  induction xs with
  | nil =>
    intro i bi bv h
    simpa [argminFrom] using h
  | cons x xs ih =>
    intro i bi bv h
    unfold argminFrom
    by_cases hx : x < bv
    · rw [if_pos hx]
      have hrec := ih (i + 1) i x (Nat.lt_succ_self i)
      simp only [List.length_cons]
      omega
    · rw [if_neg hx]
      have hrec := ih (i + 1) bi bv (Nat.lt_succ_of_lt h)
      simp only [List.length_cons]
      omega

theorem argminIdx_lt (l : List Rat) (h : l ≠ []) : argminIdx l < l.length := by
  cases l with
  | nil => exact absurd rfl h
  | cons x xs =>
    have := argminFrom_lt xs 1 0 x Nat.one_pos
    simpa [argminIdx, Nat.add_comm] using this

theorem getD_map_stdQ_nonneg (msePath : List (List Rat)) (m : Nat) :
    0 ≤ (msePath.map stdQ).getD m 0 := by
  induction msePath generalizing m with
  | nil => simp [List.getD]
  | cons row rows ih =>
    cases m with
    | zero => simpa [List.getD_cons_zero, stdQ] using Rat.sqrt_nonneg (varQ row)
    | succ k => simpa [List.getD_cons_succ] using ih k

theorem getLast?_isSome_of_ne_nil {α : Type} {l : List α} (h : l ≠ []) :
    l.getLast?.isSome = true := by
  induction l with
  | nil => exact absurd rfl h
  | cons a t ih =>
    cases t with
    | nil => rfl
    | cons b t2 =>
      rw [List.getLast?_cons_cons]
      exact ih (by simp)

/-- C10: for every nonempty cross-validation error path, the argmin of the
mean errors is itself a qualifying index - the threshold exceeds the minimum
by a standard deviation, which is nonnegative - so the qualifying index list
is never empty, the 1-SE selection always returns an index, and the warning
fallback to minimum-error selection is unreachable. -/
theorem c10_one_se_fallback_unreachable (msePath : List (List Rat)) (h : msePath ≠ []) :
    argminIdx (msePath.map meanQ) ∈
      qualifyingIndices (msePath.map meanQ) (msePath.map stdQ) ∧
    (oneSeChosenIdx (msePath.map meanQ) (msePath.map stdQ)).isSome = true := by
  have hmem : argminIdx (msePath.map meanQ) ∈
      qualifyingIndices (msePath.map meanQ) (msePath.map stdQ) := by
    unfold qualifyingIndices
    rw [List.mem_filter]
    constructor
    · rw [List.mem_range]
      exact argminIdx_lt _ (by simpa using h)
    · rw [decide_eq_true_eq]
      exact le_add_of_nonneg_right (getD_map_stdQ_nonneg msePath _)
  exact ⟨hmem, getLast?_isSome_of_ne_nil (List.ne_nil_of_mem hmem)⟩

theorem c10_one_se_fallback_unreachable_witness :
    ([[(5 : Rat), 5], [0, 2], [2, 2]] : List (List Rat)) ≠ [] ∧
    (oneSeChosenIdx (List.map meanQ [[(5 : Rat), 5], [0, 2], [2, 2]])
      (List.map stdQ [[(5 : Rat), 5], [0, 2], [2, 2]])).isSome = true :=
  ⟨by simp, (c10_one_se_fallback_unreachable [[5, 5], [0, 2], [2, 2]] (by simp)).2⟩

/-- C4 evaluation at the failing input: a schedule whose first game lacks
scores and is dropped. The enumerate-based builder of src/analyze_games.py
produces the correct two rows, one per retained game in order, while the
index-based builder of src/calculate_ols_ratings.py addresses row 2 of a
two-row matrix and raises IndexError. -/
theorem c4_index_builder_crashes :
    designMatrixByIndex exGamesBad (teamsOf exGamesBad) =
      Except.error "IndexError: row index out of bounds" ∧
    designMatrix (teamsOf exGamesBad) (filterValidGames exGamesBad) =
      [[1, -1], [-1, 1]] ∧
    margins 99 (filterValidGames exGamesBad) =
      (filterValidGames exGamesBad).map (marginOf 99) ∧
    marginOf 99 gameAB = 5 := by
  refine ⟨rfl, by decide, rfl, ?_⟩
  norm_num [marginOf, clipQ, gameAB, min_def, max_def]

theorem mem_insertRow {a u : Str × Rat} : ∀ {l : List (Str × Rat)},
    u ∈ insertRow a l → u = a ∨ u ∈ l := by
  intro l
  induction l with
  | nil => intro h; simpa [insertRow] using h
  | cons b bs ih =>
    intro h
    unfold insertRow at h
    by_cases h1 : b.2 ≤ a.2
    · rw [if_pos h1] at h
      rcases List.mem_cons.mp h with rfl | h2
      · exact Or.inl rfl
      · exact Or.inr h2
    · rw [if_neg h1] at h
      rcases List.mem_cons.mp h with rfl | h2
      · exact Or.inr (List.mem_cons_self _ _)
      · rcases ih h2 with h3 | h3
        · exact Or.inl h3
        · exact Or.inr (List.mem_cons_of_mem _ h3)

theorem round2_mono {a b : Rat} (h : a ≤ b) : round2 a ≤ round2 b := by
  unfold round2
  have hr : round (a * 100) ≤ round (b * 100) := by
    rw [round_eq, round_eq]
    exact Int.floor_le_floor (by linarith)
  have hc : ((round (a * 100) : Int) : Rat) ≤ ((round (b * 100) : Int) : Rat) := by
    exact_mod_cast hr
  exact div_le_div_of_nonneg_right hc (by norm_num) |>.trans_eq rfl

theorem isWs_toLower (c : Nat) : isWsCp (toLowerCp c) = isWsCp c := by
  unfold toLowerCp
  split_ifs with h
  · have h1 : isWsCp (c + 32) = false := by
      simp [isWsCp]
      omega
    have h2 : isWsCp c = false := by
      simp [isWsCp]
      omega
    rw [h1, h2]
  · rfl

theorem splitWords_cons_sep {c : Nat} (h : sepCp c = true) (cs : Str) :
    splitWords (c :: cs) = splitWords cs := by
  rw [splitWords]
  simp [h]

theorem splitWords_cons_not_sep {c : Nat} (h : sepCp c = false) (cs : Str) :
    splitWords (c :: cs) =
      (c :: cs.takeWhile (fun d => !sepCp d)) :: splitWords (cs.dropWhile (fun d => !sepCp d)) := by
  rw [splitWords]
  simp [h]

theorem allWs_lower {p : Str} (hp : ∀ a ∈ p, isWsCp a = true) :
    ∀ a ∈ lowerStr p, isWsCp a = true := by
  intro a ha
  rcases List.mem_map.mp ha with ⟨b, hb, rfl⟩
  rw [isWs_toLower]
  exact hp b hb

theorem allWs_reverse {p : Str} (hp : ∀ a ∈ p, isWsCp a = true) :
    ∀ a ∈ p.reverse, isWsCp a = true := by
  intro a ha
  exact hp a (List.mem_reverse.mp ha)

theorem dropWhile_ws_append {p x : Str} (hp : ∀ a ∈ p, isWsCp a = true) :
    (p ++ x).dropWhile isWsCp = x.dropWhile isWsCp := by
  induction p with
  | nil => rfl
  | cons a p' ih =>
    have ha : isWsCp a = true := hp a (List.mem_cons_self _ _)
    rw [List.cons_append, List.dropWhile_cons, if_pos ha]
    exact ih (fun b hb => hp b (List.mem_cons_of_mem _ hb))

theorem dropWhile_ws_nil {x : Str} (hx : ∀ a ∈ x, isWsCp a = true) :
    x.dropWhile isWsCp = [] := by
  induction x with
  | nil => rfl
  | cons a x' ih =>
    rw [List.dropWhile_cons, if_pos (hx a (List.mem_cons_self _ _))]
    exact ih (fun b hb => hx b (List.mem_cons_of_mem _ hb))

theorem dropWhile_ws_append_left {s : Str} (q : Str) (h : ∃ a ∈ s, isWsCp a = false) :
    (s ++ q).dropWhile isWsCp = s.dropWhile isWsCp ++ q := by
  induction s with
  | nil =>
    rcases h with ⟨a, ha, _⟩
    cases ha
  | cons b s' ih =>
    by_cases hb : isWsCp b = true
    · rw [List.cons_append, List.dropWhile_cons, if_pos hb, List.dropWhile_cons, if_pos hb]
      apply ih
      rcases h with ⟨a, ha, haf⟩
      rcases List.mem_cons.mp ha with rfl | ha2
      · rw [hb] at haf
        cases haf
      · exact ⟨a, ha2, haf⟩
    · rw [List.cons_append, List.dropWhile_cons, if_neg hb, List.dropWhile_cons, if_neg hb]
      rfl

theorem stripStr_pad (p s q : Str) (hp : ∀ a ∈ p, isWsCp a = true)
    (hq : ∀ a ∈ q, isWsCp a = true) :
    stripStr (p ++ s ++ q) = stripStr s := by
  by_cases hall : ∀ a ∈ s, isWsCp a = true
  · have h1 : ((p ++ s) ++ q).dropWhile isWsCp = [] := by
      apply dropWhile_ws_nil
      intro a ha
      rcases List.mem_append.mp ha with h2 | h2
      · rcases List.mem_append.mp h2 with h3 | h3
        · exact hp a h3
        · exact hall a h3
      · exact hq a h2
    unfold stripStr
    rw [h1, dropWhile_ws_nil hall]
  · push_neg at hall
    obtain ⟨w, hw, hwf⟩ := hall
    have hwit : ∃ a ∈ s, isWsCp a = false := ⟨w, hw, by simpa using hwf⟩
    unfold stripStr
    have e1 : ((p ++ s) ++ q).dropWhile isWsCp = (s ++ q).dropWhile isWsCp := by
      rw [List.append_assoc]
      exact dropWhile_ws_append hp
    rw [e1, dropWhile_ws_append_left q hwit, List.reverse_append,
      dropWhile_ws_append (allWs_reverse hq)]

theorem dropWhile_lower_comm (s : Str) :
    (lowerStr s).dropWhile isWsCp = lowerStr (s.dropWhile isWsCp) := by
  unfold lowerStr
  rw [List.dropWhile_map]
  have hpred : (isWsCp ∘ toLowerCp) = isWsCp := funext fun c => isWs_toLower c
  rw [hpred]

theorem lowerStr_reverse (l : Str) : (lowerStr l).reverse = lowerStr l.reverse := by
  unfold lowerStr
  exact (List.map_reverse _ _).symm

theorem stripStr_lower_comm (s : Str) : stripStr (lowerStr s) = lowerStr (stripStr s) := by
  unfold stripStr
  rw [dropWhile_lower_comm s, lowerStr_reverse, dropWhile_lower_comm, lowerStr_reverse]

theorem takeWhile_collapseFrom (z : Str) :
    (collapseWsFrom false z).takeWhile (fun d => !sepCp d) =
      z.takeWhile (fun d => !sepCp d) := by
  induction z with
  | nil => rfl
  | cons c cs ih =>
    by_cases hw : isWsCp c = true
    · have hc : collapseWsFrom false (c :: cs) = underscoreCp :: collapseWsFrom true cs := by
        simp [collapseWsFrom, hw]
      have h95 : ¬ ((!sepCp underscoreCp) = true) := by simp [sepCp, underscoreCp, isWsCp]
      have hcc : ¬ ((!sepCp c) = true) := by simp [sepCp, hw]
      rw [hc, List.takeWhile_cons, List.takeWhile_cons, if_neg h95, if_neg hcc]
    · have hc : collapseWsFrom false (c :: cs) = c :: collapseWsFrom false cs := by
        simp [collapseWsFrom, hw]
      by_cases hsep : sepCp c = true
      · have hcc : ¬ ((!sepCp c) = true) := by simp [hsep]
        rw [hc, List.takeWhile_cons, List.takeWhile_cons, if_neg hcc, if_neg hcc]
      · have hf : sepCp c = false := by
          revert hsep
          cases sepCp c <;> simp
        have hcc : (!sepCp c) = true := by rw [hf]; rfl
        rw [hc, List.takeWhile_cons, List.takeWhile_cons, if_pos hcc, if_pos hcc, ih]

theorem dropWhile_collapseFrom (z : Str) :
    (collapseWsFrom false z).dropWhile (fun d => !sepCp d) =
      collapseWsFrom false (z.dropWhile (fun d => !sepCp d)) := by
  induction z with
  | nil => rfl
  | cons c cs ih =>
    by_cases hw : isWsCp c = true
    · have hc : collapseWsFrom false (c :: cs) = underscoreCp :: collapseWsFrom true cs := by
        simp [collapseWsFrom, hw]
      have h95 : ¬ ((!sepCp underscoreCp) = true) := by simp [sepCp, underscoreCp, isWsCp]
      have hcc : ¬ ((!sepCp c) = true) := by simp [sepCp, hw]
      rw [hc, List.dropWhile_cons, if_neg h95, List.dropWhile_cons, if_neg hcc, hc]
    · have hc : collapseWsFrom false (c :: cs) = c :: collapseWsFrom false cs := by
        simp [collapseWsFrom, hw]
      by_cases hsep : sepCp c = true
      · have hcc : ¬ ((!sepCp c) = true) := by simp [hsep]
        rw [hc, List.dropWhile_cons, if_neg hcc, List.dropWhile_cons, if_neg hcc, hc]
      · have hf : sepCp c = false := by
          revert hsep
          cases sepCp c <;> simp
        have hcc : (!sepCp c) = true := by rw [hf]; rfl
        rw [hc, List.dropWhile_cons, if_pos hcc, List.dropWhile_cons, if_pos hcc, ih]

theorem splitWords_collapseFrom_aux : ∀ (n : Nat) (x : Str), x.length ≤ n → ∀ (flag : Bool),
    splitWords (collapseWsFrom flag x) = splitWords x := by
  intro n
  induction n with
  | zero =>
    intro x hx _
    have hx0 : x = [] := List.length_eq_zero.mp (Nat.le_zero.mp hx)
    subst hx0
    rfl
  | succ n ih =>
    intro x hx flag
    cases x with
    | nil => rfl
    | cons c cs =>
      have hcs : cs.length ≤ n := by
        simp only [List.length_cons] at hx
        omega
      by_cases hw : isWsCp c = true
      · have hsep : sepCp c = true := by simp [sepCp, hw]
        cases flag with
        | true =>
          have hc : collapseWsFrom true (c :: cs) = collapseWsFrom true cs := by
            simp [collapseWsFrom, hw]
          rw [hc, ih cs hcs true, splitWords_cons_sep hsep]
        | false =>
          have hc : collapseWsFrom false (c :: cs) = underscoreCp :: collapseWsFrom true cs := by
            simp [collapseWsFrom, hw]
          have hsep95 : sepCp underscoreCp = true := by simp [sepCp]
          rw [hc, splitWords_cons_sep hsep95, ih cs hcs true, splitWords_cons_sep hsep]
      · have hc : collapseWsFrom flag (c :: cs) = c :: collapseWsFrom false cs := by
          cases flag <;> simp [collapseWsFrom, hw]
        by_cases hsep : sepCp c = true
        · rw [hc, splitWords_cons_sep hsep, ih cs hcs false, splitWords_cons_sep hsep]
        · have hf : sepCp c = false := by
            revert hsep
            cases sepCp c <;> simp
          rw [hc, splitWords_cons_not_sep hf, splitWords_cons_not_sep hf,
            takeWhile_collapseFrom cs, dropWhile_collapseFrom cs]
          congr 1
          exact ih (cs.dropWhile (fun d => !sepCp d))
            (le_trans (List.dropWhile_sublist _).length_le hcs) false

theorem splitWords_collapseWs (x : Str) : splitWords (collapseWs x) = splitWords x :=
  splitWords_collapseFrom_aux x.length x le_rfl false

/-- C8 counterexample: the labels given by code points [39, 32, 97] (an
apostrophe, a space, the letter a) and [32, 97] (a space, the letter a)
differ only by one apostrophe - removing apostrophes from the first yields
the second - yet they normalize to the distinct keys [95, 97] and [97],
because the source strips whitespace before removing apostrophes, so an
apostrophe guarding leading whitespace leaves that whitespace inside the
key, where it becomes an underscore. A second edge: the whitespace-only
label [32] and the empty label strip to the same empty string, but the first
yields the empty-string key and the second yields no key at all. -/
theorem c8_apostrophe_edge :
    removeApos [apostropheCp, 32, 97] = [32, 97] ∧
    normalize_team_name (some [apostropheCp, 32, 97]) = some [underscoreCp, 97] ∧
    normalize_team_name (some [32, 97]) = some [97] ∧
    normalize_team_name (some [apostropheCp, 32, 97]) ≠ normalize_team_name (some [32, 97]) ∧
    stripStr [32] = stripStr [] ∧
    normalize_team_name (some [32]) = some [] ∧
    normalize_team_name (some []) = none := by
  refine ⟨rfl, rfl, rfl, by decide, rfl, rfl, rfl⟩

/-- C8 as amended: normalize_team_name is the pure function lowercasing,
stripping, deleting apostrophes and collapsing whitespace runs to
underscores, and it is invariant under each difference the claim lists with
the two provisos the counterexample forces. Labels differing only by case
normalize identically; a nonempty label padded with surrounding whitespace
normalizes like the unpadded label; already-stripped nonempty labels whose
lowercased, apostrophe-free forms agree normalize identically (an apostrophe
inside the surrounding whitespace region may change the key); labels with
different underlying words - word tokens of the lowercased, stripped,
apostrophe-free core, split on whitespace and underscores - never collide;
and the absent label and the empty label both yield no key. -/
theorem c8_normalizer_amended :
    (∀ s t : Str, lowerStr s = lowerStr t →
      normalize_team_name (some s) = normalize_team_name (some t)) ∧
    (∀ s p q : Str, (∀ a ∈ p, isWsCp a = true) → (∀ a ∈ q, isWsCp a = true) → s ≠ [] →
      normalize_team_name (some (p ++ s ++ q)) = normalize_team_name (some s)) ∧
    (∀ s t : Str, stripStr s = s → stripStr t = t → s ≠ [] → t ≠ [] →
      removeApos (lowerStr s) = removeApos (lowerStr t) →
      normalize_team_name (some s) = normalize_team_name (some t)) ∧
    (∀ s t : Str, underlyingWords s ≠ underlyingWords t →
      normalize_team_name (some s) ≠ normalize_team_name (some t)) ∧
    normalize_team_name none = none ∧ normalize_team_name (some []) = none := by
  refine ⟨?_, ?_, ?_, ?_, rfl, rfl⟩
  · intro s t h
    by_cases hs : s = []
    · have ht : t = [] := by
        have hlen := congrArg List.length h
        simp only [lowerStr, List.length_map] at hlen
        rw [hs] at hlen
        exact List.length_eq_zero.mp hlen.symm
      rw [hs, ht]
    · have ht : t ≠ [] := by
        intro h0
        apply hs
        have hlen := congrArg List.length h
        simp only [lowerStr, List.length_map, h0] at hlen
        simpa using List.length_eq_zero.mp (by simpa using hlen)
      simp only [normalize_team_name]
      rw [if_neg hs, if_neg ht]
      unfold canonLabel
      rw [h]
  · intro s p q hp hq hs
    have hne : p ++ s ++ q ≠ [] := by
      intro h0
      rcases List.append_eq_nil.mp h0 with ⟨h1, _⟩
      rcases List.append_eq_nil.mp h1 with ⟨_, h4⟩
      exact hs h4
    simp only [normalize_team_name]
    rw [if_neg hne, if_neg hs]
    unfold canonLabel
    have hl : lowerStr (p ++ s ++ q) = lowerStr p ++ lowerStr s ++ lowerStr q := by
      simp [lowerStr]
    rw [hl, stripStr_pad (lowerStr p) (lowerStr s) (lowerStr q) (allWs_lower hp) (allWs_lower hq)]
  · intro s t hs ht hsne htne h
    simp only [normalize_team_name]
    rw [if_neg hsne, if_neg htne]
    unfold canonLabel
    rw [stripStr_lower_comm s, stripStr_lower_comm t, hs, ht, h]
  · intro s t hw heq
    apply hw
    by_cases hs : s = []
    · by_cases ht : t = []
      · rw [hs, ht]
      · exfalso
        rw [hs] at heq
        simp only [normalize_team_name, if_pos rfl] at heq
        rw [if_neg ht] at heq
        cases heq
    · by_cases ht : t = []
      · exfalso
        rw [ht] at heq
        simp only [normalize_team_name, if_pos rfl] at heq
        rw [if_neg hs] at heq
        cases heq
      · have e : collapseWs (canonLabel s) = collapseWs (canonLabel t) := by
          simp only [normalize_team_name] at heq
          rw [if_neg hs, if_neg ht] at heq
          injection heq
        unfold underlyingWords
        calc splitWords (canonLabel s)
            = splitWords (collapseWs (canonLabel s)) := (splitWords_collapseWs _).symm
          _ = splitWords (collapseWs (canonLabel t)) := by rw [e]
          _ = splitWords (canonLabel t) := splitWords_collapseWs _

theorem c8_normalizer_amended_witness :
    lowerStr [65] = lowerStr [97] ∧
    normalize_team_name (some [65]) = normalize_team_name (some [97]) :=
  ⟨by decide, c8_normalizer_amended.1 [65] [97] (by decide)⟩

theorem perm_insertRow (a : Str × Rat) : ∀ (l : List (Str × Rat)),
    (insertRow a l).Perm (a :: l) := by
  intro l
  induction l with
  | nil => simp [insertRow]
  | cons b bs ih =>
    unfold insertRow
    by_cases h1 : b.2 ≤ a.2
    · rw [if_pos h1]
    · rw [if_neg h1]
      exact (List.Perm.cons b ih).trans (List.Perm.swap a b bs)

theorem perm_sortTable (l : List (Str × Rat)) : (sortTable l).Perm l := by
  induction l with
  | nil => simp [sortTable]
  | cons x xs ih => exact (perm_insertRow x (sortTable xs)).trans (List.Perm.cons x ih)

theorem pairwise_insertRow_le (a : Str × Rat) : ∀ {l : List (Str × Rat)},
    l.Pairwise (fun x y => y.2 ≤ x.2) →
    (insertRow a l).Pairwise (fun x y => y.2 ≤ x.2) := by
  intro l
  induction l with
  | nil => intro _; simp [insertRow]
  | cons b bs ih =>
    intro hl
    rcases List.pairwise_cons.mp hl with ⟨hb, hbs⟩
    unfold insertRow
    by_cases h1 : b.2 ≤ a.2
    · rw [if_pos h1]
      refine List.pairwise_cons.mpr ⟨?_, hl⟩
      intro u hu
      rcases List.mem_cons.mp hu with rfl | hu2
      · exact h1
      · exact le_trans (hb u hu2) h1
    · rw [if_neg h1]
      refine List.pairwise_cons.mpr ⟨?_, ih hbs⟩
      intro u hu
      rcases mem_insertRow hu with rfl | hu2
      · exact le_of_lt (lt_of_not_le h1)
      · exact hb u hu2

theorem pairwise_sortTable_le (l : List (Str × Rat)) :
    (sortTable l).Pairwise (fun x y => y.2 ≤ x.2) := by
  induction l with
  | nil => simp [sortTable]
  | cons x xs ih => exact pairwise_insertRow_le x ih

theorem pairwise_map_round2 {l : List (Str × Rat)}
    (h : l.Pairwise (fun x y => y.2 ≤ x.2)) :
    (l.map (fun p => (p.1, round2 p.2))).Pairwise (fun x y => y.2 ≤ x.2) := by
  refine List.Pairwise.map _ ?_ h
  intro x y hxy
  exact round2_mono hxy

/-- C5 counterexample: genuinely tied tables reach the sort (for instance an
elastic-net fit whose coefficients are all zero centers to all zeros over the
two-team universe of exGames), and the sort contract of the default
sort_values - a descending permutation, nothing about equal ratings - admits
the outcome that lists team b before team a: a permitted output whose
equal-rating rows are not in team-key-ascending order. The stable
tie-break by team key that the claim asserts is therefore not guaranteed by
the program. -/
theorem c5_tie_order_unspecified :
    teamsOf exGames = [teamA, teamB] ∧
    centerList [0, 0] = [0, 0] ∧
    IsSortValuesDesc [(teamA, 0), (teamB, 0)] [(teamB, 0), (teamA, 0)] ∧
    ¬ (([(teamB, 0), (teamA, 0)] : List (Str × Rat)).Pairwise
        (fun x y => x.2 = y.2 → strLt x.1 y.1 = true)) := by
  refine ⟨rfl, ?_, ⟨List.Perm.swap _ _ _, ?_⟩, ?_⟩
  · norm_num [centerList, meanQ]
  · simp
  · intro h
    have hne := (List.pairwise_cons.mp h).1 (teamA, 0) (List.mem_cons_self _ _) rfl
    simp [strLt, teamA, teamB] at hne

/-- C5 as amended: every rating table the pipeline presents is obtained by
centering, then a sort satisfying the sort_values contract - a descending
permutation of the centered table - then two-decimal rounding applied only at
presentation, after centering and after sorting; the rounded table of every
outcome the contract permits is still descending in its rating column, and so
is every table calculate_team_ratings returns. No tie-break is asserted: the
default sort leaves the relative order of equal ratings unspecified. -/
theorem c5_desc_and_round_after (solver : Solver) (games : List RawGame) (cap : Rat)
    (cents : List Rat) :
    IsSortValuesDesc ((teamsOf games).zip cents) (sortTable ((teamsOf games).zip cents)) ∧
    presentTable ((teamsOf games).zip cents) =
      (sortTable ((teamsOf games).zip cents)).map (fun p => (p.1, round2 p.2)) ∧
    (∀ out, IsSortValuesDesc ((teamsOf games).zip cents) out →
      (out.map (fun p => (p.1, round2 p.2))).Pairwise (fun x y => y.2 ≤ x.2)) ∧
    (∀ tbl, calculate_team_ratings solver games cap = Except.ok tbl →
      tbl.Pairwise (fun x y => y.2 ≤ x.2)) := by
  refine ⟨⟨(perm_sortTable _).symm, pairwise_sortTable_le _⟩, rfl, ?_, ?_⟩
  · intro out hout
    exact pairwise_map_round2 hout.2
  · intro tbl htbl
    unfold calculate_team_ratings at htbl
    by_cases hg : games.isEmpty
    · rw [if_pos hg] at htbl
      exact absurd htbl (by simp)
    · rw [if_neg hg] at htbl
      by_cases hr : (filterValidGames games).isEmpty
      · rw [if_pos hr] at htbl
        have : tbl = [] := by
          injection htbl with h2
          exact h2.symm
        subst this
        simp
      · rw [if_neg hr] at htbl
        by_cases ht : (teamsOf games).isEmpty
        · rw [if_pos ht] at htbl
          exact absurd htbl (by simp)
        · rw [if_neg ht] at htbl
          by_cases hf : (filterValidGames games).length < nFolds (filterValidGames games).length
          · rw [if_pos hf] at htbl
            exact absurd htbl (by simp)
          · rw [if_neg hf] at htbl
            have heq : tbl = presentTable ((teamsOf games).zip
                (centerList (solver (designMatrix (teamsOf games) (filterValidGames games))
                  (margins cap (filterValidGames games))).1)) := by
              injection htbl with h2
              exact h2.symm
            subst heq
            unfold presentTable
            exact pairwise_map_round2 (pairwise_sortTable_le _)

theorem c5_desc_and_round_after_witness :
    calculate_team_ratings zeroSolver [gameNoScore] 99 = Except.ok [] ∧
    ([] : List (Str × Rat)).Pairwise (fun x y => y.2 ≤ x.2) :=
  ⟨rfl, (c5_desc_and_round_after zeroSolver [gameNoScore] 99 []).2.2.2 [] rfl⟩
